import Mathlib

/-!
Verification of `insta_auto_post.py` (caption template engine, variable
registry, metadata extraction, image selection, caption resolution and the
upload/archive file lifecycle).

Python strings are modelled as `List Char`; Python's dynamically typed
values as the inductive `PyVal`; operations that can raise are modelled in
`Except PyErr`.  Each definition mirrors the function of the same name in
the source file.
-/

set_option maxHeartbeats 1000000

abbrev Str := List Char

/-- A character is brace-free when it is neither `'{'` nor `'}'`. -/
def braceFreeL (l : Str) : Prop := ∀ c ∈ l, c ≠ '{' ∧ c ≠ '}'

instance (l : Str) : Decidable (braceFreeL l) := by
  unfold braceFreeL; infer_instance

/-- ASCII lowering, modelling Python `str.lower` on the ASCII range. -/
def pyToLower (c : Char) : Char :=
  if 65 ≤ c.toNat ∧ c.toNat ≤ 90 then Char.ofNat (c.toNat + 32) else c

/-- Python `str` whitespace characters (ASCII part). -/
def isPySpace (c : Char) : Bool :=
  c = ' ' || c = '\t' || c = '\n' || c = '\r' || c = '\x0b' || c = '\x0c'

/-- Python `str.split()` with no argument: split on whitespace runs,
dropping empty fields. -/
def pySplit (s : Str) : List Str :=
  (s.splitOnP isPySpace).filter (fun w => !w.isEmpty)

/-- Python `str.strip()` with no argument: remove leading and trailing
whitespace. -/
def pyStrip (s : Str) : Str :=
  ((s.dropWhile isPySpace).reverse.dropWhile isPySpace).reverse

/-- Python's substring test `pat in s`. -/
def occursIn (pat : Str) : Str → Bool
  | [] => pat.isEmpty
  | c :: rest => pat.isPrefixOf (c :: rest) || occursIn pat rest

/-- Fuel-driven worker for Python `str.replace`: replace non-overlapping
occurrences of `pat` left to right.  The fuel bounds the recursion; with
fuel at least the length of the string the result is exact. -/
def replaceAllGo (pat rep : Str) : Nat → Str → Str
  | 0, s => s
  | _ + 1, [] => []
  | fuel + 1, c :: rest =>
    if pat.isPrefixOf (c :: rest) then
      rep ++ replaceAllGo pat rep fuel ((c :: rest).drop pat.length)
    else
      c :: replaceAllGo pat rep fuel rest

/-- Replacement of all occurrences of a nonempty pattern. -/
def replaceAll (pat rep s : Str) : Str := replaceAllGo pat rep s.length s

/-- Python `s.replace(pat, rep)`.  An empty pattern interleaves the
replacement between every character, as Python does. -/
def pyReplace (s pat rep : Str) : Str :=
  if pat.isEmpty then rep ++ s.flatMap (fun c => c :: rep)
  else replaceAll pat rep s

theorem replaceAllGo_nil (pat rep : Str) (fuel : Nat) :
    replaceAllGo pat rep fuel [] = [] := by
  cases fuel <;> rfl

theorem replaceAllGo_fuel (pat rep : Str) (hpat : pat ≠ []) :
    ∀ (f g : Nat) (s : Str), s.length ≤ f → s.length ≤ g →
      replaceAllGo pat rep f s = replaceAllGo pat rep g s := by
  intro f
  induction f with
  | zero =>
    intro g s hf _
    have : s = [] := List.eq_nil_of_length_eq_zero (Nat.le_zero.mp hf)
    subst this
    rw [replaceAllGo_nil, replaceAllGo_nil]
  | succ f ih =>
    intro g s hf hg
    cases s with
    | nil => rw [replaceAllGo_nil, replaceAllGo_nil]
    | cons c rest =>
      cases g with
      | zero => simp at hg
      | succ g =>
        have hplen : 1 ≤ pat.length := by
          cases pat with
          | nil => exact absurd rfl hpat
          | cons a as => simp
        simp only [replaceAllGo]
        by_cases hpre : pat.isPrefixOf (c :: rest) = true
        · simp only [hpre, if_true]
          have hdrop : ((c :: rest).drop pat.length).length ≤ rest.length := by
            simp only [List.length_drop, List.length_cons]
            omega
          have h1 : ((c :: rest).drop pat.length).length ≤ f := by
            simp only [List.length_cons] at hf; omega
          have h2 : ((c :: rest).drop pat.length).length ≤ g := by
            simp only [List.length_cons] at hg; omega
          rw [ih g _ h1 h2]
        · simp only [hpre, if_false, Bool.false_eq_true]
          have h1 : rest.length ≤ f := by
            simp only [List.length_cons] at hf; omega
          have h2 : rest.length ≤ g := by
            simp only [List.length_cons] at hg; omega
          rw [ih g rest h1 h2]

theorem replaceAll_nil (pat rep : Str) : replaceAll pat rep [] = [] := rfl

theorem replaceAll_cons_pos (pat rep : Str) (c : Char) (rest : Str)
    (hpat : pat ≠ []) (h : pat.isPrefixOf (c :: rest) = true) :
    replaceAll pat rep (c :: rest) =
      rep ++ replaceAll pat rep ((c :: rest).drop pat.length) := by
  have hplen : 1 ≤ pat.length := by
    cases pat with
    | nil => exact absurd rfl hpat
    | cons a as => simp
  unfold replaceAll
  simp only [List.length_cons, replaceAllGo, h, if_true]
  refine congrArg (rep ++ ·) ?_
  apply replaceAllGo_fuel pat rep hpat
  · simp only [List.length_drop, List.length_cons]; omega
  · exact Nat.le_refl _

theorem replaceAll_cons_neg (pat rep : Str) (c : Char) (rest : Str)
    (hpat : pat ≠ []) (h : ¬ pat.isPrefixOf (c :: rest) = true) :
    replaceAll pat rep (c :: rest) = c :: replaceAll pat rep rest := by
  unfold replaceAll
  simp only [List.length_cons, replaceAllGo, h, if_false, Bool.false_eq_true]

theorem replaceAll_skip (p0 : Char) (pt rep : Str) (u x : Str)
    (hu : ∀ c ∈ u, c ≠ p0) :
    replaceAll (p0 :: pt) rep (u ++ x) = u ++ replaceAll (p0 :: pt) rep x := by
  induction u with
  | nil => rfl
  | cons c u ih =>
    have hne : ¬ (p0 :: pt).isPrefixOf (c :: (u ++ x)) = true := by
      simp only [ List.isPrefixOf_iff_prefix, List.cons_prefix_cons]
      rintro ⟨h1, -⟩
      exact hu c (by simp) h1.symm
    rw [List.cons_append, replaceAll_cons_neg _ _ _ _ (by simp) hne,
      ih (fun d hd => hu d (by simp [hd]))]
    rfl

theorem replaceAll_head_match (pat rep : Str) (hpat : pat ≠ []) (x : Str) :
    replaceAll pat rep (pat ++ x) = rep ++ replaceAll pat rep x := by
  cases pat with
  | nil => exact absurd rfl hpat
  | cons p0 pt =>
    have hpre : (p0 :: pt).isPrefixOf ((p0 :: pt) ++ x) = true := by
      simp only [ List.isPrefixOf_iff_prefix]
      exact List.prefix_append _ _
    rw [List.cons_append, replaceAll_cons_pos _ _ _ _ (by simp) (by exact hpre)]
    congr 1
    rw [← List.cons_append, List.drop_left]

theorem replaceAll_of_not_occurs (pat rep : Str) (hpat : pat ≠ []) (s : Str)
    (h : ¬ pat <:+: s) : replaceAll pat rep s = s := by
  induction s with
  | nil => rfl
  | cons c rest ih =>
    have hne : ¬ pat.isPrefixOf (c :: rest) = true := by
      simp only [ List.isPrefixOf_iff_prefix]
      intro hp
      exact h hp.isInfix
    rw [replaceAll_cons_neg _ _ _ _ hpat hne,
      ih (fun hi => h (List.infix_cons_iff.mpr (Or.inr hi)))]

theorem occursIn_iff (pat s : Str) : occursIn pat s = true ↔ pat <:+: s := by
  induction s with
  | nil =>
    simp only [occursIn, List.isEmpty_iff, List.infix_nil]
  | cons c rest ih =>
    simp only [occursIn, Bool.or_eq_true, List.isPrefixOf_iff_prefix, ih,
      List.infix_cons_iff]

theorem replaceAll_singleton (a : Char) (s : Str) :
    replaceAll [a] [] s = s.filter (fun c => c != a) := by
  induction s with
  | nil => rfl
  | cons c rest ih =>
    by_cases hca : a = c
    · subst hca
      have hpre : [a].isPrefixOf (a :: rest) = true := by
        simp [ List.isPrefixOf_iff_prefix, List.cons_prefix_cons]
      rw [replaceAll_cons_pos _ _ _ _ (by simp) hpre]
      simp [ih]
    · have hne : ¬ [a].isPrefixOf (c :: rest) = true := by
        simp only [ List.isPrefixOf_iff_prefix, List.cons_prefix_cons]
        rintro ⟨rfl, -⟩; exact hca rfl
      rw [replaceAll_cons_neg _ _ _ _ (by simp) hne, ih]
      have : (c != a) = true := by
        simp only [bne_iff_ne, ne_eq]
        exact fun h => hca h.symm
      simp [List.filter_cons, this]

/-- Python exception kinds that the modelled code can raise. -/
inductive PyErr where
  | keyError
  | typeError
  | zeroDivisionError
  | attributeError
  | indexError
deriving DecidableEq

/-- Python values flowing through the script: strings, ints, floats
(modelled as rationals), `None`, and two-element tuples. -/
inductive PyVal where
  | vStr (s : Str)
  | vInt (n : Int)
  | vFloat (q : ℚ)
  | vNone
  | vPair (a b : PyVal)
deriving DecidableEq

/-- Python truthiness of the modelled values. -/
def truthy : PyVal → Bool
  | .vStr s => !s.isEmpty
  | .vInt n => n != 0
  | .vFloat q => q != 0
  | .vNone => false
  | .vPair _ _ => true

/-- Numeric view of a value, when it is an int or a float. -/
def asNum? : PyVal → Option ℚ
  | .vInt n => some (n : ℚ)
  | .vFloat q => some q
  | _ => none

/-- Rendering of a float.  Integral floats print as `n.0` exactly as in
Python; the decimal expansion of non-integral values is abstracted as
`num/den` (no claim inspects that case). -/
def floatRepr (q : ℚ) : Str :=
  if q.den = 1 then (toString q.num).data ++ ".0".data
  else (toString q.num).data ++ "/".data ++ (toString q.den).data

/-- Python `repr` on the modelled values. -/
def pyRepr : PyVal → Str
  | .vStr s => '\'' :: (s ++ ['\''])
  | .vInt n => (toString n).data
  | .vFloat q => floatRepr q
  | .vNone => "None".data
  | .vPair a b => '(' :: (pyRepr a ++ ", ".data ++ pyRepr b ++ [')'])

/-- Python `str` coercion on the modelled values. -/
def pyStr : PyVal → Str
  | .vStr s => s
  | v => pyRepr v

/-- Python `==` across the modelled values: numbers compare numerically,
mixed types are unequal without error. -/
def pyEqVal : PyVal → PyVal → Bool
  | .vInt n, .vInt m => n == m
  | .vInt n, .vFloat q => ((n : ℚ)) == q
  | .vFloat q, .vInt m => q == ((m : ℚ))
  | .vFloat q, .vFloat r => q == r
  | .vStr s, .vStr t => s == t
  | .vNone, .vNone => true
  | .vPair a b, .vPair c d => pyEqVal a c && pyEqVal b d
  | _, _ => false

/-- Strict lexicographic order on strings by code point, as Python `<`. -/
def lexLt : Str → Str → Bool
  | [], [] => false
  | [], _ :: _ => true
  | _ :: _, [] => false
  | a :: as, b :: bs =>
    decide (a.toNat < b.toNat) || (decide (a.toNat = b.toNat) && lexLt as bs)

/-- Python `a > b` on the modelled values; incomparable types raise
`TypeError`. -/
def pyGt : PyVal → PyVal → Except PyErr Bool
  | .vInt n, .vInt m => .ok (decide (m < n))
  | .vInt n, .vFloat q => .ok (decide (q < (n : ℚ)))
  | .vFloat q, .vInt m => .ok (decide ((m : ℚ) < q))
  | .vFloat q, .vFloat r => .ok (decide (r < q))
  | .vStr s, .vStr t => .ok (lexLt t s)
  | .vPair a b, .vPair c d =>
    if pyEqVal a c then (if pyEqVal b d then .ok false else pyGt b d)
    else pyGt a c
  | _, _ => .error .typeError

/-- Python `round` on a rational: nearest integer, ties to even. -/
def pyRound (q : ℚ) : Int :=
  if q - ⌊q⌋ < 1/2 then ⌊q⌋
  else if (1 : ℚ)/2 < q - ⌊q⌋ then ⌊q⌋ + 1
  else if ⌊q⌋ % 2 = 0 then ⌊q⌋ else ⌊q⌋ + 1

/-- Model of `to_tag`: convert text to a lowercase tag without spaces or
hyphens, with the fallback token for empty, `Unknown` and `N/A` input. -/
def to_tag (text : Str) : Str :=
  if text.isEmpty = true ∨ text = "Unknown".data ∨ text = "N/A".data then
    "N/A".data
  else pyReplace (pyReplace (text.map pyToLower) [' '] []) ['-'] []

/-- Dynamic-typing wrapper of `to_tag`: falsy non-strings hit the fallback
branch, truthy non-strings raise `AttributeError` at `.lower()`. -/
def pyToTag : PyVal → Except PyErr PyVal
  | .vStr s => .ok (.vStr (to_tag s))
  | v => if truthy v then .error .attributeError else .ok (.vStr "N/A".data)

/-- Model of `format_exposure_time` on the raw `.get('ExposureTime')`
result (`None` when the tag is absent). -/
def format_exposure_time (v : PyVal) : Except PyErr Str :=
  if v = .vNone then .ok "N/A".data
  else
    match asNum? v with
    | some q =>
      if 1 ≤ q then .ok (pyStr v ++ " sec".data)
      else if q = 0 then .error .zeroDivisionError
      else .ok ("1/".data ++ (toString (pyRound (1/q))).data ++ " sec".data)
    | none => .error .typeError

/-- Model of `get_orientation` on the raw `.get('width')`/`.get('height')`
results. -/
def get_orientation (width height : PyVal) : Except PyErr Str :=
  if width = .vNone ∨ height = .vNone then .ok "N/A".data
  else do
    let gt1 ← pyGt width height
    if gt1 then pure "Landscape".data
    else
      let gt2 ← pyGt height width
      if gt2 then pure "Portrait".data else pure "Square".data

/-- Keys of the metadata dict: strings for named fields and EXIF tag names,
ints for EXIF tag ids with no entry in the tag-name table. -/
inductive MKey where
  | ks (s : String)
  | ki (n : Int)
deriving DecidableEq

/-- The metadata dict, as an insertion-ordered association list. -/
abbrev Metadata := List (MKey × PyVal)

/-- Python `dict` lookup returning `None`-like absence as `none`. -/
def mdGet (m : Metadata) (k : MKey) : Option PyVal :=
  (m.find? (fun p => p.1 == k)).map (fun p => p.2)

/-- Python `dict.get(k, d)`. -/
def mdGetD (m : Metadata) (k : MKey) (d : PyVal) : PyVal :=
  (mdGet m k).getD d

/-- Python `dict.get(k)` with its implicit `None` default. -/
def mdGetOrNone (m : Metadata) (k : MKey) : PyVal :=
  (mdGet m k).getD .vNone

/-- Truthiness of `dict.get(k)`, as used in the conditional extractors. -/
def mdTruthy (m : Metadata) (k : MKey) : Bool :=
  truthy (mdGetOrNone m k)

/-- Python `dict` assignment `m[k] = v`: overwrite in place, else append. -/
def mdSet (m : Metadata) (k : MKey) (v : PyVal) : Metadata :=
  if m.any (fun p => p.1 == k) then
    m.map (fun p => if p.1 == k then (k, v) else p)
  else m ++ [(k, v)]

/-- Python `/` on the modelled values: numeric division is exact
(`TypeError` on non-numbers, `ZeroDivisionError` on a zero divisor). -/
def pyDiv (a b : PyVal) : Except PyErr PyVal :=
  match asNum? a, asNum? b with
  | some qa, some qb =>
    if qb = 0 then .error .zeroDivisionError else .ok (.vFloat (qa / qb))
  | _, _ => .error .typeError

/-- Python `value != 0`: numerically for numbers, `true` for everything
else (comparison with `!=` never raises). -/
def pyNeZero (v : PyVal) : Bool :=
  match asNum? v with
  | some q => q != 0
  | none => true

/-- The rational-value normalization inside `extract_image_metadata`:
`value = value[0] / value[1] if value[1] != 0 else value[0]`, with
`TypeError`/`ZeroDivisionError` caught and the original value kept. -/
def normalizeExifValue (v : PyVal) : PyVal :=
  match v with
  | .vPair a b =>
    if pyNeZero b then
      match pyDiv a b with
      | .ok w => w
      | .error _ => v
    else a
  | _ => v

/-- Result of a successful `Image.open`: pixel dimensions plus the EXIF
directory (`none` models `_getexif()` returning `None`).  The tag-id to
tag-name translation is abstracted: entries arrive already keyed. -/
structure DecodedImage where
  width : Int
  height : Int
  exif : Option (List (MKey × PyVal))

/-- Model of `extract_image_metadata`.  The file system and decoder are
summarised by the path-derived strings and the `decode` outcome; an
exception while opening or decoding is logged and swallowed, leaving only
the three file-derived fields. -/
def extract_image_metadata (stem fname path : Str)
    (decode : Except PyErr DecodedImage) : Metadata :=
  let metadata : Metadata :=
    [(.ks "file_name", .vStr stem),
     (.ks "file_name_full", .vStr fname),
     (.ks "file_path", .vStr path)]
  match decode with
  | .error _ => metadata
  | .ok img =>
    let m1 :=
      mdSet (mdSet metadata (.ks "width") (.vInt img.width))
        (.ks "height") (.vInt img.height)
    match img.exif with
    | none => m1
    | some entries =>
      entries.foldl (fun m kv => mdSet m kv.1 (normalizeExifValue kv.2)) m1

/-- One entry of the caption variable registry. -/
structure VarEntry where
  name : Str
  description : String
  category : String
  extractor : Metadata → Except PyErr PyVal

/-- Model of `get_variable_registry`: the fixed registry in definition
order, each extractor transcribed from the corresponding lambda. -/
def get_variable_registry : List VarEntry :=
  [⟨"FILE_NAME".data, "Image file name without extension", "File Info",
    fun md =>
      match mdGet md (.ks "file_name") with
      | some v => .ok v
      | none => .error .keyError⟩,
   ⟨"FILE_NAME_FULL".data, "Image file name with extension", "File Info",
    fun md =>
      match mdGet md (.ks "file_name_full") with
      | some v => .ok v
      | none => .error .keyError⟩,
   ⟨"IMAGE_MAKE".data, "Camera manufacturer", "Camera",
    fun md => .ok (mdGetD md (.ks "Make") (.vStr "Unknown".data))⟩,
   ⟨"IMAGE_MODEL".data, "Camera model", "Camera",
    fun md => .ok (mdGetD md (.ks "Model") (.vStr "Unknown".data))⟩,
   ⟨"IMAGE_MAKE_TAG".data, "Camera make as hashtag", "Camera",
    fun md => pyToTag (mdGetD md (.ks "Make") (.vStr []))⟩,
   ⟨"IMAGE_MODEL_TAG".data, "Camera model as hashtag", "Camera",
    fun md => pyToTag (mdGetD md (.ks "Model") (.vStr []))⟩,
   ⟨"IMAGE_F_NUMBER".data, "Aperture (f-stop) with f prefix", "Exposure",
    fun md =>
      .ok (.vStr (if mdTruthy md (.ks "FNumber") then
        'f' :: pyStr (mdGetD md (.ks "FNumber") (.vInt 0))
      else "N/A".data))⟩,
   ⟨"IMAGE_EXPOSURE_TIME".data, "Shutter speed", "Exposure",
    fun md =>
      (format_exposure_time (mdGetOrNone md (.ks "ExposureTime"))).map .vStr⟩,
   ⟨"IMAGE_ISO".data, "ISO sensitivity with ISO prefix", "Exposure",
    fun md =>
      .ok (.vStr (if mdTruthy md (.ks "ISOSpeedRatings") then
        "ISO ".data ++ pyStr (mdGetD md (.ks "ISOSpeedRatings") (.vStr "N/A".data))
      else "N/A".data))⟩,
   ⟨"IMAGE_PHOTOGRAPHIC_SENSITIVITY".data, "ISO value only (number)", "Exposure",
    fun md =>
      .ok (.vStr (pyStr (mdGetD md (.ks "ISOSpeedRatings") (.vStr "N/A".data))))⟩,
   ⟨"IMAGE_FOCAL_LENGTH".data, "Focal length with mm suffix", "Lens",
    fun md =>
      .ok (.vStr (if mdTruthy md (.ks "FocalLength") then
        pyStr (mdGetD md (.ks "FocalLength") (.vStr "N/A".data)) ++ " mm".data
      else "N/A".data))⟩,
   ⟨"IMAGE_FOCAL_LENGTH_VALUE".data, "Focal length value only (number)", "Lens",
    fun md =>
      .ok (.vStr (pyStr (mdGetD md (.ks "FocalLength") (.vStr "N/A".data))))⟩,
   ⟨"IMAGE_DATE".data, "Date photo was taken", "Date/Time",
    fun md =>
      if mdTruthy md (.ks "DateTime") then
        match mdGetD md (.ks "DateTime") (.vStr "N/A".data) with
        | .vStr s =>
          match pySplit s with
          | [] => .error .indexError
          | w :: _ => .ok (.vStr w)
        | _ => .error .attributeError
      else .ok (.vStr "N/A".data)⟩,
   ⟨"IMAGE_TIME".data, "Time photo was taken", "Date/Time",
    fun md =>
      if mdTruthy md (.ks "DateTime") then
        match mdGetD md (.ks "DateTime") (.vStr []) with
        | .vStr s =>
          match pySplit s with
          | _ :: w :: _ => .ok (.vStr w)
          | _ => .ok (.vStr "N/A".data)
        | _ => .error .attributeError
      else .ok (.vStr "N/A".data)⟩,
   ⟨"IMAGE_DATETIME".data, "Full date and time", "Date/Time",
    fun md => .ok (mdGetD md (.ks "DateTime") (.vStr "N/A".data))⟩,
   ⟨"IMAGE_WIDTH".data, "Image width in pixels", "Image Properties",
    fun md =>
      .ok (.vStr (pyStr (mdGetD md (.ks "width") (.vStr "N/A".data))))⟩,
   ⟨"IMAGE_HEIGHT".data, "Image height in pixels", "Image Properties",
    fun md =>
      .ok (.vStr (pyStr (mdGetD md (.ks "height") (.vStr "N/A".data))))⟩,
   ⟨"IMAGE_ORIENTATION".data, "Image orientation", "Image Properties",
    fun md =>
      (get_orientation (mdGetOrNone md (.ks "width"))
        (mdGetOrNone md (.ks "height"))).map .vStr⟩]

/-- The placeholder string `{NAME}` of a registry name. -/
def tokenOf (n : Str) : Str := '{' :: (n ++ ['}'])

/-- The string substituted for a placeholder: `str(extractor(metadata))`,
or the fallback token when the extractor raises (the loop catches the
exception). -/
def usedValue (e : VarEntry) (md : Metadata) : Str :=
  match e.extractor md with
  | .ok v => pyStr v
  | .error _ => "N/A".data

/-- One iteration of the replacement loop of `process_caption_template`. -/
def runEntry (md : Metadata) (acc : Str) (e : VarEntry) : Str :=
  if occursIn (tokenOf e.name) acc then
    pyReplace acc (tokenOf e.name) (usedValue e md)
  else acc

/-- The replacement loop of `process_caption_template`, over an explicit
entry list (the source iterates the registry in definition order). -/
def processOrder (entries : List VarEntry) (caption : Str) (md : Metadata) : Str :=
  entries.foldl (runEntry md) caption

/-- Model of `process_caption_template`.  The second component counts the
calls of `extract_image_metadata` (0 on the fast path, 1 otherwise). -/
def process_caption_template (caption stem fname path : Str)
    (decode : Except PyErr DecodedImage) : Str × Nat :=
  if caption.contains '{' then
    (processOrder get_variable_registry caption
      (extract_image_metadata stem fname path decode), 1)
  else (caption, 0)

/-- The module-level default caption (empty string). -/
def DEFAULT_CAPTION : Str := []

/-- Model of `get_caption_for_image`.  `sidecar` describes the caption
file next to the image: `none` when it does not exist, `some (.error e)`
when reading raises, `some (.ok content)` when it is read. -/
def get_caption_for_image (stem fname path : Str)
    (decode : Except PyErr DecodedImage)
    (sidecar : Option (Except PyErr Str)) (custom_caption : Option Str) : Str :=
  let raw_caption : Str :=
    match custom_caption with
    | some c => c
    | none =>
      match sidecar with
      | some (.ok content) => pyStrip content
      | _ => DEFAULT_CAPTION
  (process_caption_template raw_caption stem fname path decode).1

/-- Non-strict lexicographic order on strings by code point; Python sorts
paths by exactly this string comparison. -/
def lexLe : Str → Str → Bool
  | [], _ => true
  | _ :: _, [] => false
  | a :: as, b :: bs =>
    decide (a.toNat < b.toNat) || (decide (a.toNat = b.toNat) && lexLe as bs)

/-- The module-level extension set, in literal order (the source keeps it
in a Python set; the order is irrelevant because matches are sorted). -/
def SUPPORTED_EXTENSIONS : List Str :=
  [".jpg".data, ".jpeg".data, ".png".data,
   ".JPG".data, ".JPEG".data, ".PNG".data]

/-- The sort order as a relation, for `List.insertionSort`. -/
def lexLeP (a b : Str) : Prop := lexLe a b = true

instance : DecidableRel lexLeP := fun a b => by
  unfold lexLeP; infer_instance

/-- Model of `find_image_to_upload` over the list of file names in the
pending directory.  `glob(f"*{ext}")` is modelled as a suffix test; the
common directory prefix of the full paths does not change the sort order,
so names stand in for paths.  Python's `list.sort` is modelled by a
sorting algorithm over the same order (for strings the sorted list is
unique, so the algorithm is irrelevant). -/
def find_image_to_upload (files : List Str) : Option Str :=
  let image_files :=
    SUPPORTED_EXTENSIONS.flatMap (fun ext =>
      files.filter (fun f => ext.isSuffixOf f))
  if image_files.isEmpty then none
  else (image_files.insertionSort lexLeP).head?

/-- Locations of the candidate image and its sidecar caption file: each
flag says whether the file currently exists at the pending respectively
archive path. -/
structure UploadSt where
  imgPending : Bool
  capPending : Bool
  imgUploaded : Bool
  capUploaded : Bool
deriving DecidableEq

/-- Model of `move_to_uploaded`: a no-op when the image no longer exists
at its pending path (tolerated with a warning); otherwise the image moves
to the archive and then the sidecar moves too when it exists. -/
def move_to_uploaded (s : UploadSt) : UploadSt :=
  if !s.imgPending then s
  else
    let s1 : UploadSt := { s with imgPending := false, imgUploaded := true }
    if s1.capPending then { s1 with capPending := false, capUploaded := true }
    else s1

/-- The tail of `main`: after the upload attempt, a success archives the
files while a failure exits without touching them. -/
def afterUpload (upload_success : Bool) (s : UploadSt) : UploadSt :=
  if upload_success then move_to_uploaded s else s

/-- A caption piece: a literal segment or a `{NAME}` placeholder token. -/
inductive Piece where
  | seg (s : Str)
  | tok (n : Str)
deriving DecidableEq

/-- Well-formed pieces carry brace-free text. -/
def Piece.WF : Piece → Prop
  | .seg s => braceFreeL s
  | .tok n => braceFreeL n

instance (p : Piece) : Decidable p.WF := by
  cases p <;> unfold Piece.WF <;> infer_instance

/-- Rendering of one piece under a substitution state: `g n = some w`
means the token `n` has been replaced by `w`, `none` that it is still the
literal placeholder. -/
def pieceStr (g : Str → Option Str) : Piece → Str
  | .seg s => s
  | .tok n => (g n).getD (tokenOf n)

/-- Rendering of a piece list under a substitution state. -/
def mapPieces (g : Str → Option Str) (ps : List Piece) : Str :=
  ps.flatMap (pieceStr g)

/-- The raw caption described by a piece list. -/
def flattenPieces (ps : List Piece) : Str := mapPieces (fun _ => none) ps

theorem pyReplace_token (s n v : Str) :
    pyReplace s (tokenOf n) v = replaceAll (tokenOf n) v s := rfl

theorem tokenOf_ne_nil (n : Str) : tokenOf n ≠ [] := by
  simp [tokenOf]

theorem tokenOf_tail_clash {p n : Str} (hp : braceFreeL p)
    (hn : braceFreeL n) (hne : p ≠ n) (x : Str) :
    ¬ (p ++ ['}'] <+: n ++ ['}'] ++ x) := by
  induction p generalizing n with
  | nil =>
    cases n with
    | nil => exact absurd rfl hne
    | cons c n' =>
      intro h
      simp only [List.cons_append, List.nil_append] at h
      rcases List.cons_prefix_cons.mp h with ⟨h1, -⟩
      exact (hn c (by simp)).2 h1.symm
  | cons a p' ih =>
    cases n with
    | nil =>
      intro h
      simp only [List.cons_append, List.nil_append] at h
      rcases List.cons_prefix_cons.mp h with ⟨h1, -⟩
      exact (hp a (by simp)).2 h1
    | cons b n' =>
      intro h
      simp only [List.cons_append] at h
      rcases List.cons_prefix_cons.mp h with ⟨h1, h2⟩
      subst h1
      have hne' : p' ≠ n' := fun he => hne (by rw [he])
      exact ih (fun c hc => hp c (by simp [hc]))
        (fun c hc => hn c (by simp [hc])) hne' h2

theorem replaceAll_mapPieces (p v : Str) (hp : braceFreeL p)
    (hv : braceFreeL v) (g : Str → Option Str)
    (hg : ∀ n w, g n = some w → braceFreeL w) (hgp : g p = none)
    (ps : List Piece) (hps : ∀ pc ∈ ps, pc.WF) :
    replaceAll (tokenOf p) v (mapPieces g ps) =
      mapPieces (fun n => if n = p then some v else g n) ps := by
  induction ps with
  | nil => rfl
  | cons pc rest ih =>
    have hWFrest : ∀ pc ∈ rest, pc.WF := fun q hq => hps q (by simp [hq])
    have hskip : ∀ (u : Str), (∀ c ∈ u, c ≠ '{') →
        replaceAll (tokenOf p) v (u ++ mapPieces g rest) =
          u ++ replaceAll (tokenOf p) v (mapPieces g rest) := by
      intro u hu
      have : tokenOf p = '{' :: (p ++ ['}']) := rfl
      rw [this, replaceAll_skip '{' (p ++ ['}']) v u (mapPieces g rest) hu]
    cases pc with
    | seg s =>
      have hs : braceFreeL s := hps (.seg s) (by simp)
      have : mapPieces g (.seg s :: rest) = s ++ mapPieces g rest := by
        simp [mapPieces, pieceStr]
      rw [this, hskip s (fun c hc => (hs c hc).1), ih hWFrest]
      simp [mapPieces, pieceStr]
    | tok n =>
      cases hgn : g n with
      | some w =>
        have hw : braceFreeL w := hg n w hgn
        have hnp : n ≠ p := by
          intro he; rw [he, hgp] at hgn; exact Option.noConfusion hgn
        have : mapPieces g (.tok n :: rest) = w ++ mapPieces g rest := by
          simp [mapPieces, pieceStr, hgn]
        rw [this, hskip w (fun c hc => (hw c hc).1), ih hWFrest]
        simp [mapPieces, pieceStr, hnp, hgn]
      | none =>
        by_cases hnp : n = p
        · subst hnp
          have : mapPieces g (.tok n :: rest) =
              tokenOf n ++ mapPieces g rest := by
            simp [mapPieces, pieceStr, hgn]
          rw [this, replaceAll_head_match _ _ (tokenOf_ne_nil n) _, ih hWFrest]
          simp [mapPieces, pieceStr]
        · have hn : braceFreeL n := hps (.tok n) (by simp)
          have hhead : mapPieces g (.tok n :: rest) =
              '{' :: ((n ++ ['}']) ++ mapPieces g rest) := by
            simp [mapPieces, pieceStr, hgn, tokenOf]
          have hnotpre :
              ¬ (tokenOf p).isPrefixOf
                ('{' :: ((n ++ ['}']) ++ mapPieces g rest)) = true := by
            simp only [ List.isPrefixOf_iff_prefix, tokenOf,
              List.cons_prefix_cons]
            rintro ⟨-, h2⟩
            exact tokenOf_tail_clash hp hn
              (fun he => hnp he.symm) (mapPieces g rest) (by
                simpa [List.append_assoc] using h2)
          rw [hhead, replaceAll_cons_neg _ _ _ _ (tokenOf_ne_nil p) hnotpre,
            hskip (n ++ ['}'])
              (by
                intro c hc
                rcases List.mem_append.mp hc with h | h
                · exact (hn c h).1
                · simp at h; simp [h]), ih hWFrest]
          simp [mapPieces, pieceStr, hnp, hgn, tokenOf, List.append_assoc]

theorem mapPieces_cons (g : Str → Option Str) (pc : Piece) (rest : List Piece) :
    mapPieces g (pc :: rest) = pieceStr g pc ++ mapPieces g rest := by
  simp [mapPieces]

theorem mapPieces_congr (g g' : Str → Option Str) (ps : List Piece)
    (h : ∀ n, Piece.tok n ∈ ps → g n = g' n) :
    mapPieces g ps = mapPieces g' ps := by
  induction ps with
  | nil => rfl
  | cons pc rest ih =>
    have hrest := ih (fun n hn => h n (by simp [hn]))
    rw [mapPieces_cons, mapPieces_cons, hrest]
    cases pc with
    | seg s => rfl
    | tok n =>
      have := h n (by simp)
      simp [pieceStr, this]

theorem token_infix_of_mem (n : Str) (g : Str → Option Str) (ps : List Piece)
    (hmem : Piece.tok n ∈ ps) (hgn : g n = none) :
    tokenOf n <:+: mapPieces g ps := by
  induction ps with
  | nil => simp at hmem
  | cons pc rest ih =>
    rw [mapPieces_cons]
    rcases List.mem_cons.mp hmem with h | h
    · subst h
      have : pieceStr g (Piece.tok n) = tokenOf n := by simp [pieceStr, hgn]
      rw [this]
      exact (List.prefix_append _ _).isInfix
    · rcases ih h with ⟨l, r, hlr⟩
      exact ⟨pieceStr g pc ++ l, r, by rw [← hlr]; simp [List.append_assoc]⟩

/-- The substitution described by the spec: every `{NAME}` token whose
name is registered is replaced (simultaneously) by the string-coerced
extractor value, unknown tokens and literal segments stay verbatim. -/
def renderSpec (entries : List VarEntry) (md : Metadata) (ps : List Piece) : Str :=
  mapPieces (fun n =>
    match entries.find? (fun e => e.name == n) with
    | some e => some (usedValue e md)
    | none => none) ps

theorem processOrder_mapPieces (md : Metadata) (entries : List VarEntry)
    (hnames : ∀ e ∈ entries, braceFreeL e.name)
    (hvals : ∀ e ∈ entries, braceFreeL (usedValue e md))
    (hnodup : (entries.map VarEntry.name).Nodup)
    (ps : List Piece) (hps : ∀ pc ∈ ps, pc.WF)
    (g : Str → Option Str) (hg : ∀ n w, g n = some w → braceFreeL w)
    (hgnone : ∀ e ∈ entries, g e.name = none) :
    processOrder entries (mapPieces g ps) md =
      mapPieces (fun n =>
        match entries.find? (fun e => e.name == n) with
        | some e => some (usedValue e md)
        | none => g n) ps := by
  induction entries generalizing g with
  | nil => rfl
  | cons e rest ih =>
    have hge : g e.name = none := hgnone e (by simp)
    have hnodup' : (List.map VarEntry.name (e :: rest)).Nodup := hnodup
    rw [List.map_cons, List.nodup_cons] at hnodup'
    obtain ⟨hnotin, hndrest⟩ := hnodup'
    have hstep : runEntry md (mapPieces g ps) e =
        mapPieces (fun n => if n = e.name then some (usedValue e md) else g n)
          ps := by
      by_cases hOcc : occursIn (tokenOf e.name) (mapPieces g ps) = true
      · unfold runEntry
        rw [if_pos hOcc, pyReplace_token,
          replaceAll_mapPieces e.name (usedValue e md) (hnames e (by simp))
            (hvals e (by simp)) g hg hge ps hps]
      · unfold runEntry
        rw [if_neg hOcc]
        apply mapPieces_congr
        intro n htok
        by_cases hne : n = e.name
        · exfalso
          have hgn : g n = none := by rw [hne]; exact hge
          have hinf := token_infix_of_mem n g ps htok hgn
          refine hOcc ?_
          rw [occursIn_iff, ← hne]
          exact hinf
        · simp [hne]
    have hg1 : ∀ n w,
        (if n = e.name then some (usedValue e md) else g n) = some w →
          braceFreeL w := by
      intro n w hw
      by_cases hne : n = e.name
      · rw [if_pos hne] at hw
        cases hw
        exact hvals e (by simp)
      · rw [if_neg hne] at hw
        exact hg n w hw
    have hgnone1 : ∀ e' ∈ rest,
        (if e'.name = e.name then some (usedValue e md) else g e'.name) =
          none := by
      intro e' he'
      have hne : e'.name ≠ e.name := by
        intro heq
        exact hnotin (heq ▸ List.mem_map_of_mem VarEntry.name he')
      rw [if_neg hne]
      exact hgnone e' (by simp [he'])
    have hmain : processOrder (e :: rest) (mapPieces g ps) md =
        processOrder rest
          (mapPieces (fun n =>
            if n = e.name then some (usedValue e md) else g n) ps) md := by
      rw [← hstep]; rfl
    rw [hmain, ih (fun e' he' => hnames e' (by simp [he']))
      (fun e' he' => hvals e' (by simp [he'])) hndrest _ hg1
      hgnone1]
    refine congrArg (fun h => mapPieces h ps) (funext fun n => ?_)
    by_cases hn : e.name = n
    · have hfind : (e :: rest).find? (fun e' => e'.name == n) = some e := by
        simp [List.find?_cons_of_pos, hn]
      have hrest : rest.find? (fun e' => e'.name == n) = none := by
        rw [List.find?_eq_none]
        intro e' he'
        simp only [beq_eq_false_iff_ne, ne_eq, beq_iff_eq]
        intro heq
        exact hnotin ((heq.trans hn.symm) ▸ List.mem_map_of_mem VarEntry.name he')
      rw [hfind, hrest]
      simp [hn.symm]
    · have hfind : (e :: rest).find? (fun e' => e'.name == n) =
          rest.find? (fun e' => e'.name == n) := by
        refine List.find?_cons_of_neg _ ?_
        simp [hn]
      rw [hfind]
      cases hr : rest.find? (fun e' => e'.name == n) with
      | some e' => rfl
      | none => rw [if_neg (fun h => hn h.symm)]

theorem processOrder_renderSpec (entries : List VarEntry) (md : Metadata)
    (hnames : ∀ e ∈ entries, braceFreeL e.name)
    (hvals : ∀ e ∈ entries, braceFreeL (usedValue e md))
    (hnodup : (entries.map VarEntry.name).Nodup)
    (ps : List Piece) (hps : ∀ pc ∈ ps, pc.WF) :
    processOrder entries (flattenPieces ps) md = renderSpec entries md ps := by
  have := processOrder_mapPieces md entries hnames hvals hnodup ps hps
    (fun _ => none) (fun n w h => Option.noConfusion h) (fun e _ => rfl)
  exact this

theorem find?_name_perm (e1 e2 : List VarEntry) (hperm : e1.Perm e2)
    (hnodup : (e1.map VarEntry.name).Nodup) (n : Str) :
    e1.find? (fun e => e.name == n) = e2.find? (fun e => e.name == n) := by
  cases h1 : e1.find? (fun e => e.name == n) with
  | none =>
    have hall := List.find?_eq_none.mp h1
    symm
    rw [List.find?_eq_none]
    intro e he
    exact hall e (hperm.mem_iff.mpr he)
  | some a =>
    have ha1 : a ∈ e1 := List.mem_of_find?_eq_some h1
    have hpa : a.name = n := by simpa using List.find?_some h1
    cases h2 : e2.find? (fun e => e.name == n) with
    | none =>
      exact absurd (by simpa using hpa)
        (List.find?_eq_none.mp h2 a (hperm.mem_iff.mp ha1))
    | some b =>
      have hb2 : b ∈ e2 := List.mem_of_find?_eq_some h2
      have hpb : b.name = n := by simpa using List.find?_some h2
      have hab := List.inj_on_of_nodup_map hnodup ha1
        (hperm.mem_iff.mpr hb2) (by rw [hpa, hpb])
      rw [hab]

theorem brace_mem_of_tok (ps : List Piece) (n : Str)
    (h : Piece.tok n ∈ ps) : '{' ∈ flattenPieces ps := by
  have hinf := token_infix_of_mem n (fun _ => none) ps h rfl
  exact hinf.subset (by simp [tokenOf])

theorem mapPieces_eq_flatten_of_no_tok (g : Str → Option Str)
    (ps : List Piece) (h : ∀ n, ¬ Piece.tok n ∈ ps) :
    mapPieces g ps = flattenPieces ps :=
  mapPieces_congr _ _ ps (fun n hn => absurd hn (h n))

theorem char_toNat_ofNat_lt (k : Nat) (h : k < 55296) :
    (Char.ofNat k).toNat = k := by
  unfold Char.ofNat
  rw [dif_pos (Or.inl h)]
  rfl

theorem pyToLower_ne_capital (c : Char) : pyToLower c ≠ 'N' := by
  unfold pyToLower
  by_cases h : 65 ≤ c.toNat ∧ c.toNat ≤ 90
  · rw [if_pos h]
    intro he
    have h2 := congrArg Char.toNat he
    rw [char_toNat_ofNat_lt (c.toNat + 32) (by omega)] at h2
    have h78 : ('N').toNat = 78 := rfl
    rw [h78] at h2
    omega
  · rw [if_neg h]
    intro he
    subst he
    exact h (by decide)

theorem pyReplace_single (a : Char) (s : Str) :
    pyReplace s [a] [] = s.filter (fun c => c != a) := by
  unfold pyReplace
  rw [if_neg (by simp)]
  exact replaceAll_singleton a s

/-- C3: on a raw caption without `'{'`, `process_caption_template` returns
the input unchanged and does not invoke `extract_image_metadata` (the
second component counts the extraction calls). -/
theorem C3_fast_path (caption stem fname path : Str)
    (decode : Except PyErr DecodedImage) (h : ¬ '{' ∈ caption) :
    process_caption_template caption stem fname path decode = (caption, 0) := by
  have hb : ¬ caption.contains '{' = true := by
    rw [List.contains_iff_exists_mem_beq]
    rintro ⟨b, hbmem, hab⟩
    exact h (by rwa [beq_iff_eq.mp hab])
  unfold process_caption_template
  rw [if_neg hb]

/-- Instantiation of `C3_fast_path` on a concrete brace-free caption. -/
theorem C3_witness :
    process_caption_template "hello world".data "a".data "a.jpg".data
      "images/a.jpg".data (.error .typeError) = ("hello world".data, 0) :=
  C3_fast_path "hello world".data "a".data "a.jpg".data "images/a.jpg".data
    (.error .typeError) (by decide)

/-- C7: a two-element numeric pair is normalized to the quotient of its
components; a zero denominator keeps the numerator as is, and the guarded
division can never be the zero-divisor fault. -/
theorem C7_rational (a b : PyVal) (qa qb : ℚ)
    (ha : asNum? a = some qa) (hb : asNum? b = some qb) :
    (normalizeExifValue (.vPair a b) =
      if qb = 0 then a else .vFloat (qa / qb)) ∧
    (qb ≠ 0 → pyDiv a b = .ok (.vFloat (qa / qb))) := by
  constructor
  · simp only [normalizeExifValue, pyNeZero, pyDiv, ha, hb]
    by_cases h0 : qb = 0
    · simp [h0]
    · simp [h0]
  · intro h0
    simp only [pyDiv, ha, hb]
    simp [h0]

/-- Instantiation of `C7_rational`: `(1, 2)` becomes the decimal `1/2`,
and `(7, 0)` keeps the numerator `7`. -/
theorem C7_witness :
    normalizeExifValue (.vPair (.vInt 1) (.vInt 2)) = .vFloat (1/2) ∧
    normalizeExifValue (.vPair (.vInt 7) (.vInt 0)) = .vInt 7 := by
  constructor
  · rw [(C7_rational (.vInt 1) (.vInt 2) 1 2 (by decide) (by decide)).1,
      if_neg (by norm_num)]
  · rw [(C7_rational (.vInt 7) (.vInt 0) 7 0 (by decide) (by decide)).1,
      if_pos rfl]

/-- C9: when a custom caption is supplied (the empty string included), the
result of `get_caption_for_image` is independent of the sidecar caption
file - existing, missing, unreadable, or with any content - and equals the
template-processed custom caption. -/
theorem C9_custom_caption (stem fname path : Str)
    (decode : Except PyErr DecodedImage)
    (sc1 sc2 : Option (Except PyErr Str)) (c : Str) :
    get_caption_for_image stem fname path decode sc1 (some c) =
      get_caption_for_image stem fname path decode sc2 (some c) ∧
    get_caption_for_image stem fname path decode sc1 (some c) =
      (process_caption_template c stem fname path decode).1 :=
  ⟨rfl, rfl⟩

/-- C10: a nonempty string of spaces and hyphens maps to the empty string
(not the fallback token), and the fallback token is produced exactly for
the inputs `""`, `"Unknown"` and `"N/A"`. -/
theorem C10_to_tag :
    (∀ s : Str, s ≠ [] → (∀ c ∈ s, c = ' ' ∨ c = '-') → to_tag s = []) ∧
    (∀ s : Str, to_tag s = "N/A".data ↔
      s = [] ∨ s = "Unknown".data ∨ s = "N/A".data) := by
  constructor
  · intro s hne hchars
    unfold to_tag
    rw [if_neg ?hcond]
    case hcond =>
      rintro (h | h | h)
      · exact hne (List.isEmpty_iff.mp h)
      · subst h
        have := hchars 'U' (by decide)
        revert this
        decide
      · subst h
        have := hchars 'N' (by decide)
        revert this
        decide
    have hmap : s.map pyToLower = s := by
      have h1 : s.map pyToLower = s.map id := by
        apply List.map_congr_left
        intro c hc
        rcases hchars c hc with rfl | rfl <;> decide
      rw [h1, List.map_id]
    rw [hmap, pyReplace_single, pyReplace_single, List.filter_filter]
    rw [List.filter_eq_nil_iff]
    intro c hc
    rcases hchars c hc with rfl | rfl <;> decide
  · intro s
    constructor
    · intro heq
      by_cases hcond :
          s.isEmpty = true ∨ s = "Unknown".data ∨ s = "N/A".data
      · rcases hcond with h | h | h
        · exact Or.inl (List.isEmpty_iff.mp h)
        · exact Or.inr (Or.inl h)
        · exact Or.inr (Or.inr h)
      · exfalso
        unfold to_tag at heq
        rw [if_neg hcond, pyReplace_single, pyReplace_single] at heq
        have hmem : 'N' ∈ ((s.map pyToLower).filter
            (fun c => c != ' ')).filter (fun c => c != '-') := by
          rw [heq]
          decide
        have hmem2 : 'N' ∈ s.map pyToLower :=
          List.mem_of_mem_filter (List.mem_of_mem_filter hmem)
        rcases List.mem_map.mp hmem2 with ⟨c, -, hc⟩
        exact pyToLower_ne_capital c hc
    · rintro (rfl | rfl | rfl) <;> decide

/-- Instantiation of `C10_to_tag`: the separator-only string `" - "`
yields the empty string. -/
theorem C10_witness : to_tag " - ".data = [] :=
  C10_to_tag.1 " - ".data (by decide) (by decide)

theorem lexLe_refl (s : Str) : lexLe s s = true := by
  induction s with
  | nil => rfl
  | cons a as ih => simp [lexLe, ih]

theorem lexLe_total (a b : Str) : lexLe a b = true ∨ lexLe b a = true := by
  induction a generalizing b with
  | nil => exact Or.inl rfl
  | cons x xs ih =>
    cases b with
    | nil => exact Or.inr rfl
    | cons y ys =>
      rcases Nat.lt_trichotomy x.toNat y.toNat with h | h | h
      · left; simp [lexLe, h]
      · rcases ih ys with h2 | h2
        · left; simp [lexLe, h, h2]
        · right; simp [lexLe, h.symm, h2]
      · right; simp [lexLe, h]

theorem lexLe_trans (a b c : Str) (h1 : lexLe a b = true)
    (h2 : lexLe b c = true) : lexLe a c = true := by
  induction a generalizing b c with
  | nil => rfl
  | cons x xs ih =>
    cases b with
    | nil => simp [lexLe] at h1
    | cons y ys =>
      cases c with
      | nil => simp [lexLe] at h2
      | cons z zs =>
        simp only [lexLe, Bool.or_eq_true, Bool.and_eq_true,
          decide_eq_true_eq] at h1 h2 ⊢
        rcases h1 with h1 | ⟨h1e, h1r⟩
        · rcases h2 with h2 | ⟨h2e, h2r⟩
          · exact Or.inl (by omega)
          · exact Or.inl (by omega)
        · rcases h2 with h2 | ⟨h2e, h2r⟩
          · exact Or.inl (by omega)
          · exact Or.inr ⟨by omega, ih ys zs h1r h2r⟩

instance : IsTotal Str lexLeP := ⟨fun a b => lexLe_total a b⟩

instance : IsTrans Str lexLeP := ⟨fun a b c h1 h2 => lexLe_trans a b c h1 h2⟩

/-- The common directory prefix of the pending files does not change the
lexicographic comparison, so sorting names agrees with sorting full
paths. -/
theorem lexLe_append_same (pre a b : Str) :
    lexLe (pre ++ a) (pre ++ b) = lexLe a b := by
  induction pre with
  | nil => rfl
  | cons c cs ih => simp [lexLe, ih]

/-- C1 (counterexample to the claim as stated): the upload succeeds but
the image file was consumed during the upload, so `move_to_uploaded`
returns early and the sidecar stays in the pending directory although the
upload succeeded - the "never left behind when the image upload succeeds"
conjunct fails (nothing is archived, so the biconditional part holds). -/
theorem C1_counterexample :
    afterUpload true ⟨false, true, false, false⟩ =
      ⟨false, true, false, false⟩ ∧
    (afterUpload true ⟨false, true, false, false⟩).capPending = true :=
  ⟨rfl, rfl⟩

/-- C1 (amended): starting with the sidecar pending and the archive empty,
the sidecar is archived exactly when the image is archived (never alone),
a failed upload moves nothing, and a successful upload with the image
still present at archive time moves both files out of pending into the
archive. -/
theorem C1_amended (s : UploadSt) (succ : Bool)
    (hcap : s.capPending = true) (hiu : s.imgUploaded = false)
    (hcu : s.capUploaded = false) :
    ((afterUpload succ s).capUploaded = (afterUpload succ s).imgUploaded) ∧
    (succ = false → afterUpload succ s = s) ∧
    (succ = true → s.imgPending = true →
      (afterUpload succ s).imgUploaded = true ∧
      (afterUpload succ s).capUploaded = true ∧
      (afterUpload succ s).imgPending = false ∧
      (afterUpload succ s).capPending = false) := by
  obtain ⟨ip, cp, iu, cu⟩ := s
  simp only at hcap hiu hcu
  subst hcap
  subst hiu
  subst hcu
  cases succ <;> cases ip <;> decide

/-- Instantiation of `C1_amended`: successful upload with both files
present archives both. -/
theorem C1_witness :
    ((afterUpload true ⟨true, true, false, false⟩).capUploaded =
      (afterUpload true ⟨true, true, false, false⟩).imgUploaded) ∧
    (true = false → afterUpload true ⟨true, true, false, false⟩ =
      ⟨true, true, false, false⟩) ∧
    (true = true → (⟨true, true, false, false⟩ : UploadSt).imgPending = true →
      (afterUpload true ⟨true, true, false, false⟩).imgUploaded = true ∧
      (afterUpload true ⟨true, true, false, false⟩).capUploaded = true ∧
      (afterUpload true ⟨true, true, false, false⟩).imgPending = false ∧
      (afterUpload true ⟨true, true, false, false⟩).capPending = false) :=
  C1_amended ⟨true, true, false, false⟩ true rfl rfl rfl

theorem mdHasKey_iff (m : Metadata) (k : MKey) :
    (mdGet m k).isSome = true ↔ ∃ p ∈ m, p.1 = k := by
  unfold mdGet
  rw [Option.isSome_map']
  rw [List.find?_isSome]
  simp only [beq_iff_eq]

theorem mdSet_preserves_key (m : Metadata) (k k' : MKey) (v : PyVal)
    (h : ∃ p ∈ m, p.1 = k) : ∃ p ∈ mdSet m k' v, p.1 = k := by
  obtain ⟨p, hp, hk⟩ := h
  unfold mdSet
  by_cases hany : m.any (fun q => q.1 == k') = true
  · rw [if_pos hany]
    by_cases hpk : p.1 = k'
    · refine ⟨(k', v), ?_, by rw [← hpk, hk]⟩
      have := List.mem_map_of_mem
        (fun q => if q.1 == k' then (k', v) else q) hp
      simpa [hpk] using this
    · refine ⟨p, ?_, hk⟩
      have := List.mem_map_of_mem
        (fun q => if q.1 == k' then (k', v) else q) hp
      simpa [hpk] using this
  · rw [if_neg hany]
    exact ⟨p, List.mem_append_left _ hp, hk⟩

theorem mdSet_mem_self (m : Metadata) (k : MKey) (v : PyVal) :
    ∃ p ∈ mdSet m k v, p.1 = k := by
  unfold mdSet
  by_cases hany : m.any (fun q => q.1 == k) = true
  · rw [if_pos hany]
    rcases List.any_eq_true.mp hany with ⟨p, hp, hpk⟩
    refine ⟨(k, v), ?_, rfl⟩
    have := List.mem_map_of_mem (fun q => if q.1 == k then (k, v) else q) hp
    simpa [hpk] using this
  · rw [if_neg hany]
    exact ⟨(k, v), List.mem_append_right _ (by simp), rfl⟩

theorem exif_foldl_preserves_key (entries : List (MKey × PyVal))
    (m : Metadata) (k : MKey) (h : ∃ p ∈ m, p.1 = k) :
    ∃ p ∈ entries.foldl
      (fun m kv => mdSet m kv.1 (normalizeExifValue kv.2)) m, p.1 = k := by
  induction entries generalizing m with
  | nil => exact h
  | cons kv rest ih =>
    exact ih _ (mdSet_preserves_key m k kv.1 (normalizeExifValue kv.2) h)

/-- C8 (counterexample to the claim as stated): when opening or decoding
the image raises, the returned mapping has no `width` or `height` key, so
the mapping does not "always contain" them. -/
theorem C8_counterexample :
    mdGet (extract_image_metadata "a".data "a.jpg".data "images/a.jpg".data
      (.error .typeError)) (.ks "width") = none ∧
    mdGet (extract_image_metadata "a".data "a.jpg".data "images/a.jpg".data
      (.error .typeError)) (.ks "height") = none :=
  ⟨rfl, rfl⟩

/-- C8 (amended): the mapping always contains `file_name`,
`file_name_full` and `file_path`; `width` and `height` are present
whenever decoding succeeds; and on a decode failure the function still
returns (no exception escapes) exactly the three file-derived fields. -/
theorem C8_amended (stem fname path : Str)
    (decode : Except PyErr DecodedImage) :
    ((mdGet (extract_image_metadata stem fname path decode)
      (.ks "file_name")).isSome = true) ∧
    ((mdGet (extract_image_metadata stem fname path decode)
      (.ks "file_name_full")).isSome = true) ∧
    ((mdGet (extract_image_metadata stem fname path decode)
      (.ks "file_path")).isSome = true) ∧
    (∀ img, decode = .ok img →
      ((mdGet (extract_image_metadata stem fname path decode)
        (.ks "width")).isSome = true) ∧
      ((mdGet (extract_image_metadata stem fname path decode)
        (.ks "height")).isSome = true)) ∧
    (∀ e, decode = .error e →
      extract_image_metadata stem fname path decode =
        [(.ks "file_name", .vStr stem), (.ks "file_name_full", .vStr fname),
         (.ks "file_path", .vStr path)]) := by
  cases decode with
  | error e =>
    refine ⟨rfl, rfl, rfl, ?_, ?_⟩
    · intro img h
      exact Except.noConfusion h
    · intro e' _
      rfl
  | ok img =>
    set base : Metadata :=
      [(.ks "file_name", .vStr stem), (.ks "file_name_full", .vStr fname),
       (.ks "file_path", .vStr path)] with hbase
    set m1 : Metadata :=
      mdSet (mdSet base (.ks "width") (.vInt img.width)) (.ks "height")
        (.vInt img.height) with hm1
    have hkey : ∀ k : MKey, (∃ p ∈ m1, p.1 = k) →
        (mdGet (extract_image_metadata stem fname path (.ok img)) k).isSome
          = true := by
      intro k hk
      rw [mdHasKey_iff]
      cases hexif : img.exif with
      | none =>
        have hext : extract_image_metadata stem fname path (.ok img) = m1 := by
          simp only [extract_image_metadata, hexif, hm1, hbase]
        rw [hext]
        exact hk
      | some entries =>
        have hext : extract_image_metadata stem fname path (.ok img) =
            entries.foldl
              (fun m kv => mdSet m kv.1 (normalizeExifValue kv.2)) m1 := by
          simp only [extract_image_metadata, hexif, hm1, hbase]
        rw [hext]
        exact exif_foldl_preserves_key entries m1 k hk
    refine ⟨hkey _ ?_, hkey _ ?_, hkey _ ?_, ?_, ?_⟩
    · apply mdSet_preserves_key
      apply mdSet_preserves_key
      exact ⟨(.ks "file_name", .vStr stem), by rw [hbase]; simp, rfl⟩
    · apply mdSet_preserves_key
      apply mdSet_preserves_key
      exact ⟨(.ks "file_name_full", .vStr fname), by rw [hbase]; simp, rfl⟩
    · apply mdSet_preserves_key
      apply mdSet_preserves_key
      exact ⟨(.ks "file_path", .vStr path), by rw [hbase]; simp, rfl⟩
    · intro img' h
      injection h with h
      subst h
      refine ⟨hkey _ ?_, hkey _ ?_⟩
      · apply mdSet_preserves_key
        exact mdSet_mem_self base (.ks "width") (.vInt img.width)
      · exact mdSet_mem_self _ (.ks "height") (.vInt img.height)
    · intro e h
      exact Except.noConfusion h

/-- Instantiation of `C8_amended` at a successful decode. -/
theorem C8_witness :
    ((mdGet (extract_image_metadata "a".data "a.jpg".data
      "images/a.jpg".data (.ok ⟨1920, 1080, none⟩))
      (.ks "file_name")).isSome = true) ∧
    ((mdGet (extract_image_metadata "a".data "a.jpg".data
      "images/a.jpg".data (.ok ⟨1920, 1080, none⟩))
      (.ks "file_name_full")).isSome = true) ∧
    ((mdGet (extract_image_metadata "a".data "a.jpg".data
      "images/a.jpg".data (.ok ⟨1920, 1080, none⟩))
      (.ks "file_path")).isSome = true) ∧
    (∀ img, (Except.ok ⟨1920, 1080, none⟩ :
          Except PyErr DecodedImage) = .ok img →
      ((mdGet (extract_image_metadata "a".data "a.jpg".data
        "images/a.jpg".data (.ok ⟨1920, 1080, none⟩))
        (.ks "width")).isSome = true) ∧
      ((mdGet (extract_image_metadata "a".data "a.jpg".data
        "images/a.jpg".data (.ok ⟨1920, 1080, none⟩))
        (.ks "height")).isSome = true)) ∧
    (∀ e, (Except.ok ⟨1920, 1080, none⟩ :
          Except PyErr DecodedImage) = .error e →
      extract_image_metadata "a".data "a.jpg".data "images/a.jpg".data
        (.ok ⟨1920, 1080, none⟩) =
        [(.ks "file_name", .vStr "a".data),
         (.ks "file_name_full", .vStr "a.jpg".data),
         (.ks "file_path", .vStr "images/a.jpg".data)]) :=
  C8_amended "a".data "a.jpg".data "images/a.jpg".data (.ok ⟨1920, 1080, none⟩)

/-- C6: with no explicit image, the candidates are exactly the pending
files whose name ends in one of the six case-sensitive extensions; the
empty case yields `none` (never a crash), otherwise the lexicographically
first candidate is returned. -/
theorem C6_selection (files : List Str) :
    (find_image_to_upload files = none ↔
      ∀ f ∈ files, ∀ ext ∈ SUPPORTED_EXTENSIONS, ¬ ext <:+ f) ∧
    (∀ sel, find_image_to_upload files = some sel →
      (sel ∈ files ∧ ∃ ext ∈ SUPPORTED_EXTENSIONS, ext <:+ sel) ∧
      ∀ g ∈ files, (∃ ext ∈ SUPPORTED_EXTENSIONS, ext <:+ g) →
        lexLe sel g = true) := by
  have hmem : ∀ f, (f ∈ SUPPORTED_EXTENSIONS.flatMap (fun ext =>
      files.filter (fun g => ext.isSuffixOf g))) ↔
      (f ∈ files ∧ ∃ ext ∈ SUPPORTED_EXTENSIONS, ext <:+ f) := by
    intro f
    simp only [List.mem_flatMap, List.mem_filter,
      List.isSuffixOf_iff_suffix]
    constructor
    · rintro ⟨ext, hext, hf, hsuf⟩
      exact ⟨hf, ext, hext, hsuf⟩
    · rintro ⟨hf, ext, hext, hsuf⟩
      exact ⟨ext, hext, hf, hsuf⟩
  have hfind : find_image_to_upload files =
      (if (SUPPORTED_EXTENSIONS.flatMap (fun ext =>
          files.filter (fun g => ext.isSuffixOf g))).isEmpty = true then none
       else ((SUPPORTED_EXTENSIONS.flatMap (fun ext =>
          files.filter (fun g => ext.isSuffixOf g))).insertionSort
            lexLeP).head?) := rfl
  set L := SUPPORTED_EXTENSIONS.flatMap (fun ext =>
      files.filter (fun g => ext.isSuffixOf g)) with hL
  by_cases hemp : L.isEmpty = true
  · have hnil : L = [] := List.isEmpty_iff.mp hemp
    rw [hfind, if_pos hemp]
    constructor
    · constructor
      · intro _ f hf ext hext hsuf
        have hfL : f ∈ L := (hmem f).mpr ⟨hf, ext, hext, hsuf⟩
        rw [hnil] at hfL
        exact absurd hfL (List.not_mem_nil f)
      · intro _
        rfl
    · intro sel hsel
      exact Option.noConfusion hsel
  · rw [hfind, if_neg hemp]
    have hne : L ≠ [] := fun h => hemp (by rw [h]; rfl)
    have hperm := List.perm_insertionSort lexLeP L
    have hsorted := List.sorted_insertionSort lexLeP L
    obtain ⟨sel0, tail, hms⟩ : ∃ a t, L.insertionSort lexLeP = a :: t := by
      cases hms : L.insertionSort lexLeP with
      | nil =>
        exfalso
        rw [hms] at hperm
        exact hne hperm.symm.eq_nil
      | cons a t => exact ⟨a, t, rfl⟩
    rw [hms]
    constructor
    · constructor
      · intro h
        exact Option.noConfusion h
      · intro hall
        exfalso
        obtain ⟨f, hf⟩ := List.exists_mem_of_ne_nil L hne
        obtain ⟨hfl, ext, hext, hsuf⟩ := (hmem f).mp hf
        exact hall f hfl ext hext hsuf
    · intro sel hsel
      have hseleq : sel0 = sel := by simpa using hsel
      subst hseleq
      have hselL : sel0 ∈ L := hperm.mem_iff.mp (by rw [hms]; simp)
      constructor
      · exact (hmem sel0).mp hselL
      · intro g hg hgsup
        have hgL : g ∈ L := (hmem g).mpr ⟨hg, hgsup⟩
        have hgms : g ∈ sel0 :: tail := by
          rw [← hms]
          exact hperm.mem_iff.mpr hgL
        rcases List.mem_cons.mp hgms with heq | hgt
        · rw [heq]
          exact lexLe_refl _
        · rw [hms] at hsorted
          exact (List.sorted_cons.mp hsorted).1 g hgt

/-- Instantiation of `C6_selection`: between `b.png` and `a.jpg` the
selection returns `a.jpg`. -/
theorem C6_witness :
    ("a.jpg".data ∈ ["b.png".data, "a.jpg".data] ∧
      ∃ ext ∈ SUPPORTED_EXTENSIONS, ext <:+ "a.jpg".data) ∧
    ∀ g ∈ ["b.png".data, "a.jpg".data],
      (∃ ext ∈ SUPPORTED_EXTENSIONS, ext <:+ g) →
        lexLe "a.jpg".data g = true :=
  (C6_selection ["b.png".data, "a.jpg".data]).2 "a.jpg".data (by decide)

/-- The option holds a string value. -/
def isStrPresent : Option PyVal → Bool
  | some (.vStr _) => true
  | _ => false

/-- The option is absent or holds a string value. -/
def isStrOrAbsent : Option PyVal → Bool
  | none => true
  | some (.vStr _) => true
  | _ => false

/-- A well-typed `DateTime` tag: absent, or a string that is empty or has
at least one whitespace-separated field. -/
def dateTimeOk : Option PyVal → Bool
  | none => true
  | some (.vStr s) => s.isEmpty || !(pySplit s).isEmpty
  | some _ => false

/-- A well-typed `ExposureTime` tag: absent, `None`, or a nonzero
number. -/
def exposureOk : Option PyVal → Bool
  | none => true
  | some .vNone => true
  | some (.vInt n) => n != 0
  | some (.vFloat q) => q != 0
  | some _ => false

/-- A well-typed dimension: absent, `None`, or a number. -/
def dimOk : Option PyVal → Bool
  | none => true
  | some .vNone => true
  | some (.vInt _) => true
  | some (.vFloat _) => true
  | some _ => false

/-- Metadata whose special fields are well-typed for the extractors: the
two file-name fields are strings, and `Make`, `Model`, `DateTime`,
`ExposureTime`, `width` and `height`, when present, have the shapes the
extractors can digest. -/
def wellTypedMd (md : Metadata) : Bool :=
  isStrPresent (mdGet md (.ks "file_name")) &&
  isStrPresent (mdGet md (.ks "file_name_full")) &&
  isStrOrAbsent (mdGet md (.ks "Make")) &&
  isStrOrAbsent (mdGet md (.ks "Model")) &&
  dateTimeOk (mdGet md (.ks "DateTime")) &&
  exposureOk (mdGet md (.ks "ExposureTime")) &&
  dimOk (mdGet md (.ks "width")) &&
  dimOk (mdGet md (.ks "height"))

theorem isStrPresent_iff (o : Option PyVal) :
    isStrPresent o = true ↔ ∃ s, o = some (.vStr s) := by
  cases o with
  | none => simp [isStrPresent]
  | some v => cases v <;> simp [isStrPresent]

theorem isStrOrAbsent_getD (o : Option PyVal) (d : Str)
    (h : isStrOrAbsent o = true) : ∃ s, o.getD (.vStr d) = .vStr s := by
  cases o with
  | none => exact ⟨d, rfl⟩
  | some v =>
    cases v with
    | vStr s => exact ⟨s, rfl⟩
    | vInt n => simp [isStrOrAbsent] at h
    | vFloat q => simp [isStrOrAbsent] at h
    | vNone => simp [isStrOrAbsent] at h
    | vPair a b => simp [isStrOrAbsent] at h

theorem exposureOk_spec (o : Option PyVal) (h : exposureOk o = true) :
    o.getD .vNone = .vNone ∨
      ∃ q, asNum? (o.getD .vNone) = some q ∧ q ≠ 0 := by
  cases o with
  | none => exact Or.inl rfl
  | some v =>
    cases v with
    | vNone => exact Or.inl rfl
    | vInt n =>
      refine Or.inr ⟨(n : ℚ), rfl, ?_⟩
      have hn : n ≠ 0 := by simpa [exposureOk] using h
      exact Int.cast_ne_zero.mpr hn
    | vFloat q =>
      refine Or.inr ⟨q, rfl, ?_⟩
      simpa [exposureOk] using h
    | vStr s => simp [exposureOk] at h
    | vPair a b => simp [exposureOk] at h

theorem dimOk_spec (o : Option PyVal) (h : dimOk o = true) :
    o.getD .vNone = .vNone ∨ (asNum? (o.getD .vNone)).isSome = true := by
  cases o with
  | none => exact Or.inl rfl
  | some v =>
    cases v with
    | vNone => exact Or.inl rfl
    | vInt n => exact Or.inr rfl
    | vFloat q => exact Or.inr rfl
    | vStr s => simp [dimOk] at h
    | vPair a b => simp [dimOk] at h

theorem dateTimeOk_spec (o : Option PyVal) (h : dateTimeOk o = true) :
    o = none ∨ ∃ s, o = some (.vStr s) ∧
      (s.isEmpty = true ∨ pySplit s ≠ []) := by
  cases o with
  | none => exact Or.inl rfl
  | some v =>
    cases v with
    | vStr s =>
      refine Or.inr ⟨s, rfl, ?_⟩
      have := h
      simp only [dateTimeOk, Bool.or_eq_true, Bool.not_eq_true',
        List.isEmpty_iff, List.isEmpty_eq_false] at this
      rcases this with h1 | h1
      · exact Or.inl (by simpa [List.isEmpty_iff] using h1)
      · exact Or.inr h1
    | vInt n => simp [dateTimeOk] at h
    | vFloat q => simp [dateTimeOk] at h
    | vNone => simp [dateTimeOk] at h
    | vPair a b => simp [dateTimeOk] at h

theorem format_exposure_ok (v : PyVal)
    (h : v = .vNone ∨ ∃ q, asNum? v = some q ∧ q ≠ 0) :
    ∃ s, format_exposure_time v = .ok s := by
  rcases h with rfl | ⟨q, hq, hq0⟩
  · exact ⟨"N/A".data, rfl⟩
  · unfold format_exposure_time
    by_cases hv0 : v = .vNone
    · subst hv0; simp [asNum?] at hq
    · rw [if_neg hv0]
      simp only [hq]
      by_cases h1 : 1 ≤ q
      · rw [if_pos h1]; exact ⟨_, rfl⟩
      · rw [if_neg h1, if_neg hq0]; exact ⟨_, rfl⟩

theorem pyGt_num_ok (a b : PyVal) (ha : (asNum? a).isSome = true)
    (hb : (asNum? b).isSome = true) : ∃ r, pyGt a b = .ok r := by
  cases a <;> cases b <;>
    first
      | exact ⟨_, rfl⟩
      | simp [asNum?] at ha hb

theorem get_orientation_ok (w h : PyVal)
    (hw : w = .vNone ∨ (asNum? w).isSome = true)
    (hh : h = .vNone ∨ (asNum? h).isSome = true) :
    ∃ s, get_orientation w h = .ok s := by
  by_cases hw0 : w = .vNone
  · exact ⟨"N/A".data, by simp [get_orientation, hw0]⟩
  · by_cases hh0 : h = .vNone
    · exact ⟨"N/A".data, by simp [get_orientation, hh0]⟩
    · have hwn := hw.resolve_left hw0
      have hhn := hh.resolve_left hh0
      obtain ⟨r1, hr1⟩ := pyGt_num_ok w h hwn hhn
      obtain ⟨r2, hr2⟩ := pyGt_num_ok h w hhn hwn
      refine ⟨if r1 then "Landscape".data
        else if r2 then "Portrait".data else "Square".data, ?_⟩
      rw [get_orientation, if_neg (by tauto)]
      cases r1 with
      | true => simp [hr1, Bind.bind, Except.bind, Pure.pure, Except.pure]
      | false =>
        cases r2 with
        | true => simp [hr1, hr2, Bind.bind, Except.bind, Pure.pure, Except.pure]
        | false => simp [hr1, hr2, Bind.bind, Except.bind, Pure.pure, Except.pure]

/-- C5 (amended): on metadata whose special tags are well-typed (and with
`ExposureTime` nonzero when present), every registry extractor returns a
string without raising; and on metadata holding only the three
file-derived fields, every EXIF-dependent extractor returns the `N/A`
fallback except `IMAGE_MAKE` and `IMAGE_MODEL`, whose fallback is the
string `Unknown`.  Without the well-typedness restriction the claim fails
(for example `ExposureTime = 0` raises `ZeroDivisionError`). -/
theorem C5_amended :
    (∀ md : Metadata, wellTypedMd md = true →
      ∀ e ∈ get_variable_registry, ∃ s : Str,
        e.extractor md = .ok (.vStr s)) ∧
    (∀ stem fname path : Str, ∀ e ∈ get_variable_registry,
      e.name ≠ "FILE_NAME".data → e.name ≠ "FILE_NAME_FULL".data →
      e.extractor [(.ks "file_name", .vStr stem),
        (.ks "file_name_full", .vStr fname),
        (.ks "file_path", .vStr path)] =
        .ok (.vStr (if e.name = "IMAGE_MAKE".data ∨
          e.name = "IMAGE_MODEL".data
          then "Unknown".data else "N/A".data))) := by
  constructor
  · intro md hwt e he
    simp only [wellTypedMd, Bool.and_eq_true] at hwt
    obtain ⟨⟨⟨⟨⟨⟨⟨h1, h2⟩, h3⟩, h4⟩, h5⟩, h6⟩, h7⟩, h8⟩ := hwt
    simp only [get_variable_registry, List.mem_cons, List.not_mem_nil,
      or_false] at he
    rcases he with
      rfl|rfl|rfl|rfl|rfl|rfl|rfl|rfl|rfl|rfl|rfl|rfl|rfl|rfl|rfl|rfl|rfl|rfl
    · obtain ⟨s, hs⟩ := (isStrPresent_iff _).mp h1
      exact ⟨s, by simp [hs]⟩
    · obtain ⟨s, hs⟩ := (isStrPresent_iff _).mp h2
      exact ⟨s, by simp [hs]⟩
    · obtain ⟨s, hs⟩ := isStrOrAbsent_getD _ "Unknown".data h3
      exact ⟨s, by simp [mdGetD, hs]⟩
    · obtain ⟨s, hs⟩ := isStrOrAbsent_getD _ "Unknown".data h4
      exact ⟨s, by simp [mdGetD, hs]⟩
    · obtain ⟨s, hs⟩ := isStrOrAbsent_getD _ [] h3
      refine ⟨to_tag s, ?_⟩
      show pyToTag (mdGetD md (.ks "Make") (.vStr [])) = _
      simp only [mdGetD]
      rw [hs]
      rfl
    · obtain ⟨s, hs⟩ := isStrOrAbsent_getD _ [] h4
      refine ⟨to_tag s, ?_⟩
      show pyToTag (mdGetD md (.ks "Model") (.vStr [])) = _
      simp only [mdGetD]
      rw [hs]
      rfl
    · exact ⟨_, rfl⟩
    · obtain ⟨s, hs⟩ := format_exposure_ok _ (exposureOk_spec _ h6)
      refine ⟨s, ?_⟩
      show (format_exposure_time
        (mdGetOrNone md (.ks "ExposureTime"))).map PyVal.vStr = _
      simp only [mdGetOrNone]
      rw [hs]
      rfl
    · exact ⟨_, rfl⟩
    · exact ⟨_, rfl⟩
    · exact ⟨_, rfl⟩
    · exact ⟨_, rfl⟩
    · rcases dateTimeOk_spec _ h5 with hv | ⟨s, hv, hsp⟩
      · exact ⟨"N/A".data, by simp [mdTruthy, mdGetOrNone, hv, truthy]⟩
      · by_cases hse : s.isEmpty = true
        · exact ⟨"N/A".data,
            by simp [mdTruthy, mdGetOrNone, hv, truthy, hse]⟩
        · have hsp2 : pySplit s ≠ [] := hsp.resolve_left hse
          cases hsplit : pySplit s with
          | nil => exact absurd hsplit hsp2
          | cons w ws =>
            exact ⟨w, by
              simp [mdTruthy, mdGetOrNone, hv, truthy, hse, mdGetD, hsplit]⟩
    · rcases dateTimeOk_spec _ h5 with hv | ⟨s, hv, hsp⟩
      · exact ⟨"N/A".data, by simp [mdTruthy, mdGetOrNone, hv, truthy]⟩
      · by_cases hse : s.isEmpty = true
        · exact ⟨"N/A".data,
            by simp [mdTruthy, mdGetOrNone, hv, truthy, hse]⟩
        · cases hsplit : pySplit s with
          | nil =>
            exact ⟨"N/A".data, by
              simp [mdTruthy, mdGetOrNone, hv, truthy, hse, mdGetD, hsplit]⟩
          | cons w ws =>
            cases ws with
            | nil =>
              exact ⟨"N/A".data, by
                simp [mdTruthy, mdGetOrNone, hv, truthy, hse, mdGetD, hsplit]⟩
            | cons w2 ws2 =>
              exact ⟨w2, by
                simp [mdTruthy, mdGetOrNone, hv, truthy, hse, mdGetD, hsplit]⟩
    · have h5' : isStrOrAbsent (mdGet md (.ks "DateTime")) = true := by
        rcases dateTimeOk_spec _ h5 with hv | ⟨s, hv, -⟩ <;>
          simp [hv, isStrOrAbsent]
      obtain ⟨s, hs⟩ := isStrOrAbsent_getD _ "N/A".data h5'
      exact ⟨s, by simp [mdGetD, hs]⟩
    · exact ⟨_, rfl⟩
    · exact ⟨_, rfl⟩
    · obtain ⟨s, hs⟩ := get_orientation_ok (mdGetOrNone md (.ks "width"))
        (mdGetOrNone md (.ks "height")) (dimOk_spec _ h7) (dimOk_spec _ h8)
      refine ⟨s, ?_⟩
      show (get_orientation (mdGetOrNone md (.ks "width"))
        (mdGetOrNone md (.ks "height"))).map PyVal.vStr = _
      rw [hs]
      rfl
  · intro stem fname path e he hn1 hn2
    simp only [get_variable_registry, List.mem_cons, List.not_mem_nil,
      or_false] at he
    rcases he with
      rfl|rfl|rfl|rfl|rfl|rfl|rfl|rfl|rfl|rfl|rfl|rfl|rfl|rfl|rfl|rfl|rfl|rfl
    · exact absurd rfl hn1
    · exact absurd rfl hn2
    · rfl
    · rfl
    · rfl
    · rfl
    · rfl
    · rfl
    · rfl
    · rfl
    · rfl
    · rfl
    · rfl
    · rfl
    · rfl
    · rfl
    · rfl
    · rfl

/-- C5 (counterexample to the claim as stated): metadata with the
file-derived fields present and the malformed tag `ExposureTime = 0`
makes the `IMAGE_EXPOSURE_TIME` extractor raise `ZeroDivisionError`
past its own boundary instead of returning a fallback string. -/
theorem C5_counterexample :
    (get_variable_registry.find? (fun e =>
      e.name == "IMAGE_EXPOSURE_TIME".data)).map (fun e =>
        e.extractor [(.ks "file_name", .vStr "a".data),
          (.ks "file_name_full", .vStr "a.jpg".data),
          (.ks "file_path", .vStr "images/a.jpg".data),
          (.ks "ExposureTime", .vInt 0)]) =
      some (.error .zeroDivisionError) := by
  rfl

/-- Instantiation of `C5_amended`: on well-typed metadata with an ISO tag,
the `IMAGE_WIDTH` entry returns a string without raising. -/
theorem C5_witness :
    ∃ s : Str,
      VarEntry.extractor
        ⟨"IMAGE_WIDTH".data, "Image width in pixels", "Image Properties",
          fun md =>
            .ok (.vStr (pyStr (mdGetD md (.ks "width") (.vStr "N/A".data))))⟩
        [(.ks "file_name", .vStr "a".data),
         (.ks "file_name_full", .vStr "a.jpg".data),
         (.ks "file_path", .vStr "images/a.jpg".data),
         (.ks "ISOSpeedRatings", .vInt 400),
         (.ks "width", .vInt 1920)] = .ok (.vStr s) :=
  C5_amended.1
    [(.ks "file_name", .vStr "a".data),
     (.ks "file_name_full", .vStr "a.jpg".data),
     (.ks "file_path", .vStr "images/a.jpg".data),
     (.ks "ISOSpeedRatings", .vInt 400),
     (.ks "width", .vInt 1920)] (by decide)
    ⟨"IMAGE_WIDTH".data, "Image width in pixels", "Image Properties",
      fun md =>
        .ok (.vStr (pyStr (mdGetD md (.ks "width") (.vStr "N/A".data))))⟩
    (by simp [get_variable_registry])

set_option maxHeartbeats 10000000 in
theorem registry_names_braceFree :
    ∀ e ∈ get_variable_registry, braceFreeL e.name := by
  decide

set_option maxHeartbeats 10000000 in
theorem registry_names_nodup :
    (get_variable_registry.map VarEntry.name).Nodup := by
  decide

set_option maxHeartbeats 10000000 in
/-- C2 (counterexample to the claim as stated): the raw caption
`{{FILE_NAME}}` on a file named `IMAGE_ISO.jpg` with ISO 400.  The
computed value of `FILE_NAME` is the string `IMAGE_ISO`, yet the final
output is `ISO 400`: the replaced value combined with the stray braces
into a new registered placeholder that a later iteration substituted, so
the occurrence of `{FILE_NAME}` was not replaced by its extractor's value
(which does not even occur in the output). -/
theorem C2_counterexample :
    (process_caption_template ('{' :: (tokenOf "FILE_NAME".data ++ ['}']))
      "IMAGE_ISO".data "IMAGE_ISO.jpg".data "images/IMAGE_ISO.jpg".data
      (.ok ⟨100, 100, some [(.ks "ISOSpeedRatings", .vInt 400)]⟩)).1 =
      "ISO 400".data ∧
    occursIn "IMAGE_ISO".data
      (process_caption_template ('{' :: (tokenOf "FILE_NAME".data ++ ['}']))
        "IMAGE_ISO".data "IMAGE_ISO.jpg".data "images/IMAGE_ISO.jpg".data
        (.ok ⟨100, 100, some [(.ks "ISOSpeedRatings", .vInt 400)]⟩)).1
      = false := by
  constructor
  · decide
  · decide

theorem fst_pair (x : Str) (n : Nat) : ((x, n) : Str × Nat).1 = x := rfl

/-- C2 (amended): for a raw caption that is a concatenation of brace-free
segments and placeholder tokens, and metadata whose substituted values
are brace-free, the processed caption is exactly the simultaneous
substitution `renderSpec`: every occurrence of a registered placeholder
is replaced by the string-coerced extractor value (the loop's fallback
included) and unknown placeholders and segments stay verbatim. -/
theorem C2_amended (ps : List Piece) (stem fname path : Str)
    (decode : Except PyErr DecodedImage)
    (hps : ∀ pc ∈ ps, pc.WF)
    (hvals : ∀ e ∈ get_variable_registry, braceFreeL
      (usedValue e (extract_image_metadata stem fname path decode))) :
    (process_caption_template (flattenPieces ps) stem fname path decode).1 =
      renderSpec get_variable_registry
        (extract_image_metadata stem fname path decode) ps := by
  have hnames := registry_names_braceFree
  have hnodup := registry_names_nodup
  by_cases hb : (flattenPieces ps).contains '{' = true
  · have hpr : process_caption_template (flattenPieces ps) stem fname path
        decode = (processOrder get_variable_registry (flattenPieces ps)
          (extract_image_metadata stem fname path decode), 1) := by
      unfold process_caption_template
      rw [if_pos hb]
    rw [hpr, fst_pair]
    exact processOrder_renderSpec _ _ hnames hvals hnodup ps hps
  · have hpr : process_caption_template (flattenPieces ps) stem fname path
        decode = (flattenPieces ps, 0) := by
      unfold process_caption_template
      rw [if_neg hb]
    rw [hpr, fst_pair]
    have hnotok : ∀ n, ¬ Piece.tok n ∈ ps := by
      intro n hn
      apply hb
      rw [List.contains_iff_exists_mem_beq]
      exact ⟨'{', brace_mem_of_tok ps n hn, by simp⟩
    unfold renderSpec
    exact (mapPieces_eq_flatten_of_no_tok _ ps hnotok).symm

set_option maxHeartbeats 10000000 in
/-- Instantiation of `C2_amended` on the caption
`Shot at {IMAGE_ISO} x{FOO}` for a decoded image with ISO 400. -/
theorem C2_witness :
    (process_caption_template
      (flattenPieces [.seg "Shot at ".data, .tok "IMAGE_ISO".data,
        .seg " x".data, .tok "FOO".data])
      "a".data "a.jpg".data "images/a.jpg".data
      (.ok ⟨100, 100, some [(.ks "ISOSpeedRatings", .vInt 400)]⟩)).1 =
      renderSpec get_variable_registry
        (extract_image_metadata "a".data "a.jpg".data "images/a.jpg".data
          (.ok ⟨100, 100, some [(.ks "ISOSpeedRatings", .vInt 400)]⟩))
        [.seg "Shot at ".data, .tok "IMAGE_ISO".data,
         .seg " x".data, .tok "FOO".data] :=
  C2_amended [.seg "Shot at ".data, .tok "IMAGE_ISO".data,
      .seg " x".data, .tok "FOO".data]
    "a".data "a.jpg".data "images/a.jpg".data
    (.ok ⟨100, 100, some [(.ks "ISOSpeedRatings", .vInt 400)]⟩)
    (by decide) (by decide)

set_option maxHeartbeats 10000000 in
/-- C4 (counterexample to the claim as stated): on the caption
`{{FILE_NAME}}` with a file named `IMAGE_ISO.jpg` and ISO 800, the
definition order gives `ISO 800` while the reversed order - a permutation
of the registry - gives the literal `{IMAGE_ISO}`: the processing order
does affect the final result. -/
theorem C4_counterexample :
    processOrder get_variable_registry
      ('{' :: (tokenOf "FILE_NAME".data ++ ['}']))
      [(.ks "file_name", .vStr "IMAGE_ISO".data),
       (.ks "file_name_full", .vStr "IMAGE_ISO.jpg".data),
       (.ks "file_path", .vStr "images/IMAGE_ISO.jpg".data),
       (.ks "ISOSpeedRatings", .vInt 800)] = "ISO 800".data ∧
    processOrder get_variable_registry.reverse
      ('{' :: (tokenOf "FILE_NAME".data ++ ['}']))
      [(.ks "file_name", .vStr "IMAGE_ISO".data),
       (.ks "file_name_full", .vStr "IMAGE_ISO.jpg".data),
       (.ks "file_path", .vStr "images/IMAGE_ISO.jpg".data),
       (.ks "ISOSpeedRatings", .vInt 800)] =
      tokenOf "IMAGE_ISO".data ∧
    "ISO 800".data ≠ tokenOf "IMAGE_ISO".data := by
  refine ⟨by decide, by decide, by decide⟩

/-- C4 (amended): for a caption made of brace-free segments and
placeholder tokens and brace-free substituted values, processing the
entries in any permutation of the registry order yields the same resolved
caption (both orders give the simultaneous substitution). -/
theorem C4_order_amended (entries1 entries2 : List VarEntry) (md : Metadata)
    (ps : List Piece) (hperm : entries1.Perm entries2)
    (hnodup : (entries1.map VarEntry.name).Nodup)
    (hnames : ∀ e ∈ entries1, braceFreeL e.name)
    (hvals : ∀ e ∈ entries1, braceFreeL (usedValue e md))
    (hps : ∀ pc ∈ ps, pc.WF) :
    processOrder entries1 (flattenPieces ps) md =
      processOrder entries2 (flattenPieces ps) md := by
  have hnodup2 : (entries2.map VarEntry.name).Nodup :=
    (hperm.map VarEntry.name).nodup_iff.mp hnodup
  have hnames2 : ∀ e ∈ entries2, braceFreeL e.name :=
    fun e he => hnames e (hperm.mem_iff.mpr he)
  have hvals2 : ∀ e ∈ entries2, braceFreeL (usedValue e md) :=
    fun e he => hvals e (hperm.mem_iff.mpr he)
  rw [processOrder_renderSpec entries1 md hnames hvals hnodup ps hps,
    processOrder_renderSpec entries2 md hnames2 hvals2 hnodup2 ps hps]
  unfold renderSpec
  refine congrArg (fun g => mapPieces g ps) (funext fun n => ?_)
  rw [find?_name_perm entries1 entries2 hperm hnodup n]

set_option maxHeartbeats 10000000 in
/-- Instantiation of `C4_order_amended`: the registry against its
reversal on a well-formed caption. -/
theorem C4_witness :
    processOrder get_variable_registry
      (flattenPieces [.seg "ISO: ".data, .tok "IMAGE_ISO".data])
      [(.ks "file_name", .vStr "a".data),
       (.ks "file_name_full", .vStr "a.jpg".data),
       (.ks "file_path", .vStr "images/a.jpg".data),
       (.ks "ISOSpeedRatings", .vInt 400)] =
    processOrder get_variable_registry.reverse
      (flattenPieces [.seg "ISO: ".data, .tok "IMAGE_ISO".data])
      [(.ks "file_name", .vStr "a".data),
       (.ks "file_name_full", .vStr "a.jpg".data),
       (.ks "file_path", .vStr "images/a.jpg".data),
       (.ks "ISOSpeedRatings", .vInt 400)] :=
  C4_order_amended get_variable_registry get_variable_registry.reverse
    [(.ks "file_name", .vStr "a".data),
     (.ks "file_name_full", .vStr "a.jpg".data),
     (.ks "file_path", .vStr "images/a.jpg".data),
     (.ks "ISOSpeedRatings", .vInt 400)]
    [.seg "ISO: ".data, .tok "IMAGE_ISO".data]
    (List.reverse_perm get_variable_registry).symm
    (by decide) (by decide) (by decide) (by decide)
